import Mathlib

set_option maxRecDepth 100000

/- Verification of the Bloom-filter password-uniqueness module
   (`bloom_filter_passwords.py`) and the HyperLogLog comparison driver
   (`compare_unique_ips.py`). Machine integers are modelled as `Nat` with
   explicit reduction modulo powers of two where the algorithms require it. -/

/-- Model of the Python values that flow through the module: the missing-value
marker `None`, strings, and integers (the representative of a non-string,
non-`None` value; the code only ever converts items with `str`). -/
inductive PyValue where
  | none
  | str (s : String)
  | int (n : Int)
deriving DecidableEq

/-- Python `str(item)`: `str(None) = "None"`, strings unchanged, integers in
decimal with a leading minus sign when negative. -/
def pyStr : PyValue → String
  | PyValue.none => "None"
  | PyValue.str s => s
  | PyValue.int n => toString n

/-- Python `isinstance(item, str)`. -/
def PyValue.isStr : PyValue → Bool
  | PyValue.str _ => true
  | _ => false

/-- UTF-8 encoding of one code point (the source calls `.encode('utf-8')`). -/
def utf8Bytes (c : Nat) : List Nat :=
  if c < 128 then [c]
  else if c < 2048 then [192 + c / 64, 128 + c % 64]
  else if c < 65536 then [224 + c / 4096, 128 + c / 64 % 64, 128 + c % 64]
  else [240 + c / 262144, 128 + c / 4096 % 64, 128 + c / 64 % 64, 128 + c % 64]

/-- The UTF-8 byte sequence of a string. -/
def strBytes (s : String) : List Nat :=
  (s.data.map (fun ch => utf8Bytes ch.toNat)).flatten

/- MD5 (`hashlib.md5`), computed over byte lists with `Nat` arithmetic. -/

/-- Truncation to a 32-bit word. -/
def w32 (x : Nat) : Nat := x % 4294967296

/-- The 32-bit left rotation (argument already a 32-bit word). -/
def rotl32 (x s : Nat) : Nat := ((x <<< s) ||| (x >>> (32 - s))) % 4294967296

/-- The 64 MD5 round constants, `floor(2^32 * abs(sin(i + 1)))`. -/
def md5K : List Nat :=
  [3614090360, 3905402710, 606105819, 3250441966,
   4118548399, 1200080426, 2821735955, 4249261313,
   1770035416, 2336552879, 4294925233, 2304563134,
   1804603682, 4254626195, 2792965006, 1236535329,
   4129170786, 3225465664, 643717713, 3921069994,
   3593408605, 38016083, 3634488961, 3889429448,
   568446438, 3275163606, 4107603335, 1163531501,
   2850285829, 4243563512, 1735328473, 2368359562,
   4294588738, 2272392833, 1839030562, 4259657740,
   2763975236, 1272893353, 4139469664, 3200236656,
   681279174, 3936430074, 3572445317, 76029189,
   3654602809, 3873151461, 530742520, 3299628645,
   4096336452, 1126891415, 2878612391, 4237533241,
   1700485571, 2399980690, 4293915773, 2240044497,
   1873313359, 4264355552, 2734768916, 1309151649,
   4149444226, 3174756917, 718787259, 3951481745]

/-- The 64 MD5 per-round left-rotation amounts. -/
def md5S : List Nat :=
  [7, 12, 17, 22, 7, 12, 17, 22, 7, 12, 17, 22, 7, 12, 17, 22,
   5, 9, 14, 20, 5, 9, 14, 20, 5, 9, 14, 20, 5, 9, 14, 20,
   4, 11, 16, 23, 4, 11, 16, 23, 4, 11, 16, 23, 4, 11, 16, 23,
   6, 10, 15, 21, 6, 10, 15, 21, 6, 10, 15, 21, 6, 10, 15, 21]

/-- The MD5 nonlinear mixing function of round `i`. -/
def md5F (i b c d : Nat) : Nat :=
  if i < 16 then (b &&& c) ||| ((b ^^^ 4294967295) &&& d)
  else if i < 32 then (d &&& b) ||| ((d ^^^ 4294967295) &&& c)
  else if i < 48 then b ^^^ c ^^^ d
  else c ^^^ (b ||| (d ^^^ 4294967295))

/-- The message-word index used by MD5 round `i`. -/
def md5G (i : Nat) : Nat :=
  if i < 16 then i
  else if i < 32 then (5 * i + 1) % 16
  else if i < 48 then (3 * i + 5) % 16
  else (7 * i) % 16

/-- Little-endian 32-bit word `g` of a 64-byte chunk. -/
def leWord (chunk : List Nat) (g : Nat) : Nat :=
  chunk.getD (4 * g) 0 + 256 * chunk.getD (4 * g + 1) 0 +
    65536 * chunk.getD (4 * g + 2) 0 + 16777216 * chunk.getD (4 * g + 3) 0

/-- The four 32-bit MD5 state registers. -/
structure MD5State where
  a : Nat
  b : Nat
  c : Nat
  d : Nat

/-- One MD5 round. -/
def md5Step (chunk : List Nat) (st : MD5State) (i : Nat) : MD5State :=
  let f := w32 (md5F i st.b st.c st.d + st.a + md5K.getD i 0 + leWord chunk (md5G i))
  ⟨st.d, w32 (st.b + rotl32 f (md5S.getD i 0)), st.b, st.c⟩

/-- Processing one 64-byte chunk: 64 rounds, then the feed-forward addition. -/
def md5Chunk (st : MD5State) (chunk : List Nat) : MD5State :=
  let r := (List.range 64).foldl (md5Step chunk) st
  ⟨w32 (st.a + r.a), w32 (st.b + r.b), w32 (st.c + r.c), w32 (st.d + r.d)⟩

/-- The `n` little-endian bytes of `x`. -/
def toLEBytes : Nat → Nat → List Nat
  | _, 0 => []
  | x, n + 1 => x % 256 :: toLEBytes (x / 256) n

/-- MD5 padding: a `0x80` byte, zeros to 56 mod 64, then the bit length as a
64-bit little-endian quantity. -/
def md5Pad (msg : List Nat) : List Nat :=
  msg ++ 128 :: List.replicate ((119 - msg.length % 64) % 64) 0 ++
    toLEBytes (8 * msg.length % 18446744073709551616) 8

/-- Folds `md5Chunk` over successive 64-byte chunks; the first argument is the
number of chunks (the padded message has length a positive multiple of 64). -/
def md5Fold : Nat → List Nat → MD5State → MD5State
  | 0, _, st => st
  | n + 1, bs, st => md5Fold n (bs.drop 64) (md5Chunk st (bs.take 64))

/-- The MD5 initial state. -/
def md5Init : MD5State := ⟨1732584193, 4023233417, 2562383102, 271733878⟩

/-- The 16 digest bytes of a message. -/
def md5Digest (msg : List Nat) : List Nat :=
  let p := md5Pad msg
  let st := md5Fold (p.length / 64) p md5Init
  toLEBytes st.a 4 ++ toLEBytes st.b 4 ++ toLEBytes st.c 4 ++ toLEBytes st.d 4

/-- Python `int(hashlib.md5(msg).hexdigest(), 16)`: the digest bytes read as a
big-endian 128-bit integer. -/
def md5Int (msg : List Nat) : Nat :=
  (md5Digest msg).foldl (fun acc byte => 256 * acc + byte) 0

/- The Bloom filter (`class BloomFilter`). The mutable object is modelled by
state passing: a method that mutates `self` returns the new state, and a
method that can `raise ValueError` additionally returns the error message. -/

/-- The `BloomFilter` instance state: `size`, `bit_array` and `num_hashes`. -/
structure BloomFilter where
  size : Nat
  bit_array : List Nat
  num_hashes : Nat
deriving DecidableEq

/-- The constructor `BloomFilter.__init__`: the bit array starts as `[0] * size`. -/
def BloomFilter.new (size num_hashes : Nat) : BloomFilter :=
  ⟨size, List.replicate size 0, num_hashes⟩

/-- The method `BloomFilter._hashes`: one MD5 over `str(item) + str(i)` per seed
`i < num_hashes`, each reduced modulo `size`. -/
def BloomFilter._hashes (bf : BloomFilter) (item : PyValue) : List Nat :=
  (List.range bf.num_hashes).map
    (fun i => md5Int (strBytes (pyStr item ++ Nat.repr i)) % bf.size)

/-- The guard `item is None or item == ""` shared by `add` and `check`. -/
def badItem (item : PyValue) : Prop :=
  item = PyValue.none ∨ item = PyValue.str ""

instance (item : PyValue) : Decidable (badItem item) := by
  unfold badItem; infer_instance

/-- The message of the `ValueError` raised by `add` and `check`. -/
def invalidMsg : String := "Item cannot be None or empty"

/-- The loop of `add`: `self.bit_array[hash_value] = 1` for each position. -/
def setAll (bits : List Nat) : List Nat → List Nat
  | [] => bits
  | h :: t => setAll (bits.set h 1) t

/-- The method `BloomFilter.add`: raises (second component) on `None`/`""` before any
mutation, otherwise sets the bit at every hash position. -/
def BloomFilter.add (bf : BloomFilter) (item : PyValue) :
    BloomFilter × Option String :=
  if badItem item then (bf, some invalidMsg)
  else (⟨bf.size, setAll bf.bit_array (bf._hashes item), bf.num_hashes⟩,
        Option.none)

/-- The loop of `check`: return `False` on the first unset bit, else `True`. -/
def checkLoop (bits : List Nat) : List Nat → Bool
  | [] => true
  | h :: t => if bits.getD h 0 = 0 then false else checkLoop bits t

/-- The method `BloomFilter.check`: raises on `None`/`""`, otherwise reports whether every
hash position holds a set bit; it never mutates the filter. -/
def BloomFilter.check (bf : BloomFilter) (item : PyValue) :
    Except String Bool :=
  if badItem item then Except.error invalidMsg
  else Except.ok (checkLoop bf.bit_array (bf._hashes item))

/-- Folding `add` over a list of items, keeping the state; an item on which
`add` raises leaves the state exactly as it was (`add` raises before any
mutation). -/
def addList (bf : BloomFilter) (items : List PyValue) : BloomFilter :=
  items.foldl (fun b it => (b.add it).1) bf

/-- One public filter operation of a client history. -/
inductive FilterOp where
  | add (x : PyValue)
  | check (x : PyValue)

/-- The filter state after a history of public operations: `add` moves to the
post-`add` state, `check` computes a Boolean without touching the state
(the source method contains no assignment). -/
def runOps (bf : BloomFilter) : List FilterOp → BloomFilter
  | [] => bf
  | FilterOp.add x :: rest => runOps (bf.add x).1 rest
  | FilterOp.check _ :: rest => runOps bf rest

/- `check_password_uniqueness`: the results dictionary. Python `dict` update
`d[k] = v` keeps the position of an existing key and updates its value, and
appends a new key at the end. -/

/-- The `results` dictionary: keys in insertion order. -/
def dictSet : List (PyValue × String) → PyValue → String → List (PyValue × String)
  | [], k, v => [(k, v)]
  | e :: rest, k, v =>
    if e.1 = k then (e.1, v) :: rest else e :: dictSet rest k v

/-- Dictionary lookup (`d[k]` as a total function). -/
def dictGet : List (PyValue × String) → PyValue → Option String
  | [], _ => Option.none
  | e :: rest, k => if e.1 = k then some e.2 else dictGet rest k

/-- The loop of `check_password_uniqueness`, threading the filter and the
`results` dictionary; an exception from `check` or `add` would propagate
(`Except.error`), exactly as in the source, which catches nothing. -/
def cpuGo (bf : BloomFilter) (acc : List (PyValue × String)) :
    List PyValue → Except String (BloomFilter × List (PyValue × String))
  | [] => Except.ok (bf, acc)
  | p :: rest =>
    if p.isStr = false ∨ p = PyValue.str "" then
      cpuGo bf (dictSet acc p "invalid input") rest
    else
      match bf.check p with
      | Except.error e => Except.error e
      | Except.ok true => cpuGo bf (dictSet acc p "already used") rest
      | Except.ok false =>
        match bf.add p with
        | (bf', Option.none) => cpuGo bf' (dictSet acc p "unique") rest
        | (_, some e) => Except.error e

/-- The function `check_password_uniqueness(bloom_filter, passwords)`. -/
def check_password_uniqueness (bf : BloomFilter) (passwords : List PyValue) :
    Except String (BloomFilter × List (PyValue × String)) :=
  cpuGo bf [] passwords

/-- The status string the loop body of `check_password_uniqueness` assigns to
one item against a given filter state: `"invalid input"` for a non-string or
empty item, `"already used"` when `check` answers `True`, else `"unique"`. -/
def classifyOne (bf : BloomFilter) (p : PyValue) : String :=
  if p.isStr = false ∨ p = PyValue.str "" then "invalid input"
  else
    match bf.check p with
    | Except.ok true => "already used"
    | _ => "unique"

/-- The filter state after the loop body of `check_password_uniqueness`
handles one item: unchanged unless the item is classified `"unique"`, in
which case the item is added. -/
def stepFilter (bf : BloomFilter) (p : PyValue) : BloomFilter :=
  if p.isStr = false ∨ p = PyValue.str "" then bf
  else
    match bf.check p with
    | Except.ok true => bf
    | _ => (bf.add p).1

/- The cardinality estimator of `compare_unique_ips.py`. The repository only
drives it: `HyperLogLog` itself comes from the third-party `hyperloglog`
package, so its internals are modelled from the spec (§3, §4.4). -/

/-- Bit length of a natural number (`0` for `0`). -/
def bitLength (w : Nat) : Nat := if w = 0 then 0 else Nat.log2 w + 1

/-- Modelled from the spec: the `HyperLogLog` class imported from the
third-party `hyperloglog` package is absent from the repository; per the spec
the sketch state is a fixed-size array of small-integer registers, initialized
to the identity value `0` (no observations). -/
structure HyperLogLog where
  p : Nat
  registers : List Nat
deriving DecidableEq

/-- Modelled from the spec: construction derives the register count from the
requested error rate (`2 ^ p` registers); the driver's `error_rate = 0.01`
corresponds to precision `p = 14`, the smallest `p` with
`1.04 / sqrt(2 ^ p) <= 0.01`. -/
def HyperLogLog.new (p : Nat) : HyperLogLog :=
  ⟨p, List.replicate (2 ^ p) 0⟩

/-- Modelled from the spec: the register selected for an item, the `p`-bit
prefix of its wide fixed-width hash (the 128-bit MD5 of this development). -/
def hllIndex (p : Nat) (item : String) : Nat :=
  md5Int (strBytes item) >>> (128 - p)

/-- Modelled from the spec: the candidate rank of an item, derived from the
leading-zero run of the hash bits remaining after the register prefix. -/
def hllRank (p : Nat) (item : String) : Nat :=
  128 - p + 1 - bitLength (md5Int (strBytes item) % 2 ^ (128 - p))

/-- Modelled from the spec: `add` hashes the item, selects a register by the
hash prefix, and updates that register to the maximum of its current value
and the candidate rank. -/
def HyperLogLog.add (h : HyperLogLog) (item : String) : HyperLogLog :=
  ⟨h.p, h.registers.set (hllIndex h.p item)
    (max (h.registers.getD (hllIndex h.p item) 0) (hllRank h.p item))⟩

/-- Modelled from the spec: `estimate`/`card` combines all registers by the
harmonic-mean bias-correction formula and is a pure read. The small- and
large-range correction regimes are likewise pure functions of the same
registers and are omitted; every claim about `card` uses only that it depends
on nothing but the registers. Computed in `ℚ` (the library's float arithmetic
is not modelled bit-for-bit). -/
def HyperLogLog.card (h : HyperLogLog) : ℚ :=
  let m : ℚ := (2 : ℚ) ^ h.p
  let alpha : ℚ := 7213 / 10000 / (1 + 1079 / (1000 * m))
  alpha * m * m / (h.registers.foldl (fun acc r => acc + (1 / 2) ^ r) 0)

/-- The function `hyperloglog_count_unique(ips, error_rate=0.01)`: a fresh sketch at the
default error rate, one `add` per list element in order, then `card`. -/
def hyperloglog_count_unique (ips : List String) : ℚ :=
  (ips.foldl HyperLogLog.add (HyperLogLog.new 14)).card

/- Theorems. First: the MD5 embedding against two published test vectors. -/

/-- MD5 test vector: the empty message. -/
theorem md5Int_empty :
    md5Int (strBytes "") = 0xd41d8cd98f00b204e9800998ecf8427e := by decide

/-- MD5 test vector: the message `"abc"`. -/
theorem md5Int_abc :
    md5Int (strBytes "abc") = 0x900150983cd24fb0d6963f7d28e17f72 := by decide

/- Helper lemmas on list updates. -/

/-- The update `List.set` described through `getD`. -/
theorem getD_set (l : List Nat) (m n v : Nat) :
    (l.set m v).getD n 0 = if m = n ∧ m < l.length then v else l.getD n 0 := by
  induction l generalizing m n with
  | nil => simp
  | cons a t ih =>
    cases m with
    | zero =>
      cases n with
      | zero => simp
      | succ n => simp
    | succ m =>
      cases n with
      | zero => simp
      | succ n => simpa [Nat.succ_lt_succ_iff] using ih m n

/-- The loop `setAll` preserves the length of the bit array. -/
theorem setAll_length (hs : List Nat) :
    ∀ bits : List Nat, (setAll bits hs).length = bits.length := by
  induction hs with
  | nil => intro bits; rfl
  | cons h t ih => intro bits; rw [setAll, ih, List.length_set]

/-- The loop `setAll` described through `getD`: positions in the list (and in range)
hold `1`, every other position is untouched. -/
theorem setAll_getD (hs : List Nat) :
    ∀ (bits : List Nat) (i : Nat), (setAll bits hs).getD i 0 =
      if i ∈ hs ∧ i < bits.length then 1 else bits.getD i 0 := by
  induction hs with
  | nil => intro bits i; simp [setAll]
  | cons h t ih =>
    intro bits i
    rw [setAll, ih, List.length_set, getD_set]
    by_cases h3 : h = i
    · subst h3
      by_cases h1 : h ∈ t <;> by_cases h2 : h < bits.length <;> simp [h1, h2]
    · have h3' : i ≠ h := fun e => h3 e.symm
      by_cases h1 : i ∈ t <;> by_cases h2 : i < bits.length <;>
        simp [h1, h2, h3, h3']

/-- The `check` loop answers `true` exactly when every listed position holds a
nonzero bit. -/
theorem checkLoop_true (bits : List Nat) (hs : List Nat) :
    checkLoop bits hs = true ↔ ∀ h ∈ hs, bits.getD h 0 ≠ 0 := by
  induction hs with
  | nil => simp [checkLoop]
  | cons h t ih => by_cases hz : bits.getD h 0 = 0 <;> simp [checkLoop, hz, ih]

/- Helper lemmas on `_hashes`. -/

/-- The hash derivation depends only on the `size` and `num_hashes` fields. -/
theorem hashes_eq (bf1 bf2 : BloomFilter) (x : PyValue)
    (hs : bf1.size = bf2.size) (hk : bf1.num_hashes = bf2.num_hashes) :
    bf1._hashes x = bf2._hashes x := by
  unfold BloomFilter._hashes; rw [hs, hk]

/-- The hash derivation produces one position per seed. -/
theorem hashes_length (bf : BloomFilter) (x : PyValue) :
    (bf._hashes x).length = bf.num_hashes := by
  simp [BloomFilter._hashes]

/-- Every produced position is reduced modulo `size`. -/
theorem hashes_lt (bf : BloomFilter) (x : PyValue) (h : 1 ≤ bf.size) :
    ∀ q ∈ bf._hashes x, q < bf.size := by
  intro q hq
  simp only [BloomFilter._hashes, List.mem_map, List.mem_range] at hq
  obtain ⟨i, _, rfl⟩ := hq
  exact Nat.mod_lt _ h

/- Helper lemmas on `add` and `addList`. -/

/-- On a valid item, `add` raises nothing and sets the hash positions. -/
theorem add_valid (bf : BloomFilter) (x : PyValue) (hx : ¬ badItem x) :
    bf.add x = (⟨bf.size, setAll bf.bit_array (bf._hashes x), bf.num_hashes⟩,
      Option.none) := by
  simp [BloomFilter.add, hx]

/-- Insertion never changes `size`. -/
theorem add_size (bf : BloomFilter) (x : PyValue) :
    (bf.add x).1.size = bf.size := by
  unfold BloomFilter.add; split <;> rfl

/-- Insertion never changes `num_hashes`. -/
theorem add_num_hashes (bf : BloomFilter) (x : PyValue) :
    (bf.add x).1.num_hashes = bf.num_hashes := by
  unfold BloomFilter.add; split <;> rfl

/-- Insertion never changes the length of the bit array. -/
theorem add_length (bf : BloomFilter) (x : PyValue) :
    (bf.add x).1.bit_array.length = bf.bit_array.length := by
  unfold BloomFilter.add; split
  · rfl
  · simp [setAll_length]

/-- Each bit after `add` is either its old value or `1`. -/
theorem add_getD_or (bf : BloomFilter) (x : PyValue) (i : Nat) :
    (bf.add x).1.bit_array.getD i 0 = bf.bit_array.getD i 0 ∨
      (bf.add x).1.bit_array.getD i 0 = 1 := by
  unfold BloomFilter.add; split
  · left; rfl
  · simp only [setAll_getD]
    split
    · right; rfl
    · left; rfl

/-- Insertion never clears a set bit. -/
theorem add_mono (bf : BloomFilter) (x : PyValue) (i : Nat)
    (h : bf.bit_array.getD i 0 ≠ 0) :
    (bf.add x).1.bit_array.getD i 0 ≠ 0 := by
  rcases add_getD_or bf x i with heq | heq <;> rw [heq]
  · exact h
  · exact one_ne_zero

/-- Insertion of a valid item sets the bit at each in-range hash position. -/
theorem add_sets (bf : BloomFilter) (x : PyValue) (i : Nat)
    (hx : ¬ badItem x) (hi : i ∈ bf._hashes x)
    (hlen : i < bf.bit_array.length) :
    (bf.add x).1.bit_array.getD i 0 = 1 := by
  rw [add_valid bf x hx]
  show (setAll bf.bit_array (bf._hashes x)).getD i 0 = 1
  rw [setAll_getD]
  simp [hi, hlen]

/-- Repeated insertion never changes `size`. -/
theorem addList_size (items : List PyValue) :
    ∀ bf : BloomFilter, (addList bf items).size = bf.size := by
  induction items with
  | nil => intro bf; rfl
  | cons x t ih =>
    intro bf
    show (addList (bf.add x).1 t).size = bf.size
    rw [ih, add_size]

/-- Repeated insertion never changes `num_hashes`. -/
theorem addList_num_hashes (items : List PyValue) :
    ∀ bf : BloomFilter, (addList bf items).num_hashes = bf.num_hashes := by
  induction items with
  | nil => intro bf; rfl
  | cons x t ih =>
    intro bf
    show (addList (bf.add x).1 t).num_hashes = bf.num_hashes
    rw [ih, add_num_hashes]

/-- Repeated insertion never changes the length of the bit array. -/
theorem addList_length (items : List PyValue) :
    ∀ bf : BloomFilter, (addList bf items).bit_array.length =
      bf.bit_array.length := by
  induction items with
  | nil => intro bf; rfl
  | cons x t ih =>
    intro bf
    show (addList (bf.add x).1 t).bit_array.length = bf.bit_array.length
    rw [ih, add_length]

/-- Repeated insertion never clears a set bit. -/
theorem addList_mono (items : List PyValue) :
    ∀ (bf : BloomFilter) (i : Nat), bf.bit_array.getD i 0 ≠ 0 →
      (addList bf items).bit_array.getD i 0 ≠ 0 := by
  induction items with
  | nil => intro bf i h; exact h
  | cons x t ih =>
    intro bf i h
    exact ih (bf.add x).1 i (add_mono bf x i h)

/-- Lists of naturals agreeing in length and at every `getD` index are
equal. -/
theorem ext_of_length_getD (l1 l2 : List Nat) (hl : l1.length = l2.length)
    (h : ∀ i, l1.getD i 0 = l2.getD i 0) : l1 = l2 := by
  apply List.ext_getElem hl
  intro i h1 h2
  have hi := h i
  rwa [List.getD_eq_getElem l1 0 h1, List.getD_eq_getElem l2 0 h2] at hi

/-- Setting the same list of positions twice is the same as setting it
once. -/
theorem setAll_idem (bits hs : List Nat) :
    setAll (setAll bits hs) hs = setAll bits hs := by
  apply ext_of_length_getD
  · rw [setAll_length, setAll_length]
  · intro i
    simp only [setAll_getD, setAll_length]
    by_cases h1 : i ∈ hs <;> by_cases h2 : i < bits.length <;> simp [h1, h2]

/-- After a successful `add` of `x` and then any further additions, `check x`
answers `True`: the shared core of the no-false-negative claims. -/
theorem check_after_add (bf : BloomFilter) (x : PyValue)
    (hx : ¬ badItem x) (hlen : bf.bit_array.length = bf.size)
    (hm : 1 ≤ bf.size) (post : List PyValue) :
    (addList (bf.add x).1 post).check x = Except.ok true := by
  set bf2 := (bf.add x).1 with hbf2
  set bf3 := addList bf2 post with hbf3
  have hsz2 : bf2.size = bf.size := add_size bf x
  have hk2 : bf2.num_hashes = bf.num_hashes := add_num_hashes bf x
  have hsz3 : bf3.size = bf2.size := addList_size post bf2
  have hk3 : bf3.num_hashes = bf2.num_hashes := addList_num_hashes post bf2
  have hhash3 : bf3._hashes x = bf._hashes x :=
    hashes_eq bf3 bf x (by rw [hsz3, hsz2]) (by rw [hk3, hk2])
  have hcheck : bf3.check x =
      Except.ok (checkLoop bf3.bit_array (bf3._hashes x)) := by
    simp [BloomFilter.check, hx]
  have hloop : checkLoop bf3.bit_array (bf3._hashes x) = true := by
    rw [checkLoop_true]
    intro q hq
    rw [hhash3] at hq
    have hqlt : q < bf.bit_array.length := by
      rw [hlen]; exact hashes_lt bf x hm q hq
    have h2 : bf2.bit_array.getD q 0 = 1 := add_sets bf x q hx hq hqlt
    exact addList_mono post bf2 q (by rw [h2]; exact one_ne_zero)
  rw [hcheck, hloop]

/- The claims about the Bloom filter proper. -/

/-- C1: for every filter state satisfying the construction invariant
(`bit_array` of length `size`, `size ≥ 1`, `num_hashes ≥ 1`) and every
non-empty string `s`, whatever items were added before, `add(s)` raises
nothing, and after any further items are added, `check(s)` returns `True`:
the filter has no false negatives. -/
theorem C1_no_false_negatives (bf0 : BloomFilter) (pre post : List PyValue)
    (s : String) (hlen : bf0.bit_array.length = bf0.size)
    (hm : 1 ≤ bf0.size) (_hk : 1 ≤ bf0.num_hashes) (hs : s ≠ "") :
    ((addList bf0 pre).add (PyValue.str s)).2 = Option.none ∧
      (addList ((addList bf0 pre).add (PyValue.str s)).1 post).check
        (PyValue.str s) = Except.ok true := by
  have hx : ¬ badItem (PyValue.str s) := by simp [badItem, hs]
  have hlen1 : (addList bf0 pre).bit_array.length = (addList bf0 pre).size := by
    rw [addList_length, addList_size, hlen]
  have hm1 : 1 ≤ (addList bf0 pre).size := by rw [addList_size]; exact hm
  exact ⟨by rw [add_valid _ _ hx], check_after_add _ _ hx hlen1 hm1 post⟩

/-- C1 witness: a concrete size-8, 2-hash filter, with `"x"` added before
`"a"` and `"y"` added after. -/
theorem C1_witness :
    ((BloomFilter.new 8 2).bit_array.length = (BloomFilter.new 8 2).size ∧
      1 ≤ (BloomFilter.new 8 2).size ∧ 1 ≤ (BloomFilter.new 8 2).num_hashes ∧
      "a" ≠ "") ∧
    (((addList (BloomFilter.new 8 2) [PyValue.str "x"]).add
        (PyValue.str "a")).2 = Option.none ∧
      (addList ((addList (BloomFilter.new 8 2) [PyValue.str "x"]).add
        (PyValue.str "a")).1 [PyValue.str "y"]).check (PyValue.str "a") =
        Except.ok true) :=
  ⟨⟨by decide, by decide, by decide, by decide⟩,
    C1_no_false_negatives (BloomFilter.new 8 2) [PyValue.str "x"]
      [PyValue.str "y"] "a" (by decide) (by decide) (by decide) (by decide)⟩

/-- C3: `add` and `check` raise the `ValueError` exactly on `None` and on the
empty string; a failing `add` leaves the filter exactly as it was, and `add`
never changes `size` or `num_hashes`. -/
theorem C3_invalid_input (bf : BloomFilter) (x : PyValue) :
    ((bf.add x).2.isSome ↔ (x = PyValue.none ∨ x = PyValue.str "")) ∧
    ((bf.check x).toOption.isNone ↔ (x = PyValue.none ∨ x = PyValue.str "")) ∧
    (bf.add PyValue.none).1 = bf ∧
    (bf.add (PyValue.str "")).1 = bf ∧
    (bf.add x).1.size = bf.size ∧
    (bf.add x).1.num_hashes = bf.num_hashes := by
  refine ⟨?_, ?_, ?_, ?_, add_size bf x, add_num_hashes bf x⟩
  · show (bf.add x).2.isSome ↔ badItem x
    by_cases hb : badItem x <;> simp [BloomFilter.add, hb]
  · show (bf.check x).toOption.isNone ↔ badItem x
    by_cases hb : badItem x <;> simp [BloomFilter.check, hb, Except.toOption]
  · simp [BloomFilter.add, badItem]
  · simp [BloomFilter.add, badItem]

/-- C4: `add` is idempotent on valid items: adding the same item twice in a
row produces the same bit array as adding it once. -/
theorem C4_add_idempotent (bf : BloomFilter) (x : PyValue)
    (hx : ¬ (x = PyValue.none ∨ x = PyValue.str "")) :
    (((bf.add x).1).add x).1.bit_array = (bf.add x).1.bit_array := by
  have hx' : ¬ badItem x := hx
  have hh : (bf.add x).1._hashes x = bf._hashes x :=
    hashes_eq _ bf x (add_size bf x) (add_num_hashes bf x)
  rw [add_valid (bf.add x).1 x hx']
  show setAll (bf.add x).1.bit_array ((bf.add x).1._hashes x) =
    (bf.add x).1.bit_array
  rw [hh, add_valid bf x hx']
  show setAll (setAll bf.bit_array (bf._hashes x)) (bf._hashes x) =
    setAll bf.bit_array (bf._hashes x)
  exact setAll_idem _ _

/-- C4 witness: the item `"a"` on a fresh size-8, 2-hash filter. -/
theorem C4_witness :
    ¬ (PyValue.str "a" = PyValue.none ∨ PyValue.str "a" = PyValue.str "") ∧
    ((((BloomFilter.new 8 2).add (PyValue.str "a")).1).add
      (PyValue.str "a")).1.bit_array =
      ((BloomFilter.new 8 2).add (PyValue.str "a")).1.bit_array :=
  ⟨by decide, C4_add_idempotent (BloomFilter.new 8 2) (PyValue.str "a")
    (by decide)⟩

/-- C5: with `size ≥ 1` and the length invariant, `_hashes` yields exactly
`num_hashes` positions, each below `size` and hence within the bit array, and
the modulo reduction is by a positive number. -/
theorem C5_hashes_in_range (bf : BloomFilter) (x : PyValue)
    (hm : 1 ≤ bf.size) (hlen : bf.bit_array.length = bf.size) :
    (bf._hashes x).length = bf.num_hashes ∧
      ∀ q ∈ bf._hashes x, q < bf.size ∧ q < bf.bit_array.length :=
  ⟨hashes_length bf x, fun q hq =>
    ⟨hashes_lt bf x hm q hq, by rw [hlen]; exact hashes_lt bf x hm q hq⟩⟩

/-- C5 witness: the item `"a"` on a fresh size-8, 2-hash filter. -/
theorem C5_witness :
    (1 ≤ (BloomFilter.new 8 2).size ∧
      (BloomFilter.new 8 2).bit_array.length = (BloomFilter.new 8 2).size) ∧
    (((BloomFilter.new 8 2)._hashes (PyValue.str "a")).length =
        (BloomFilter.new 8 2).num_hashes ∧
      ∀ q ∈ (BloomFilter.new 8 2)._hashes (PyValue.str "a"),
        q < (BloomFilter.new 8 2).size ∧
          q < (BloomFilter.new 8 2).bit_array.length) :=
  ⟨⟨by decide, by decide⟩,
    C5_hashes_in_range (BloomFilter.new 8 2) (PyValue.str "a")
      (by decide) (by decide)⟩

/-- C7: over any history of public operations, `size` and `num_hashes` never
change, the bit-array length never changes, a set bit stays set, and every
bit is either its original value or `1` (`check` touches nothing, `add` only
sets bits): the set of set bits grows monotonically. -/
theorem C7_monotone_invariant (bf : BloomFilter) (ops : List FilterOp) :
    (runOps bf ops).size = bf.size ∧
    (runOps bf ops).num_hashes = bf.num_hashes ∧
    (runOps bf ops).bit_array.length = bf.bit_array.length ∧
    (∀ i, bf.bit_array.getD i 0 ≠ 0 →
      (runOps bf ops).bit_array.getD i 0 ≠ 0) ∧
    (∀ i, (runOps bf ops).bit_array.getD i 0 = bf.bit_array.getD i 0 ∨
      (runOps bf ops).bit_array.getD i 0 = 1) := by
  induction ops generalizing bf with
  | nil => exact ⟨rfl, rfl, rfl, fun _ h => h, fun _ => Or.inl rfl⟩
  | cons op rest ih =>
    cases op with
    | add x =>
      simp only [runOps]
      obtain ⟨s1, s2, s3, s4, s5⟩ := ih (bf.add x).1
      refine ⟨by rw [s1, add_size], by rw [s2, add_num_hashes],
        by rw [s3, add_length], fun i h => s4 i (add_mono bf x i h), ?_⟩
      intro i
      rcases s5 i with h | h
      · rcases add_getD_or bf x i with h2 | h2
        · exact Or.inl (by rw [h, h2])
        · exact Or.inr (by rw [h, h2])
      · exact Or.inr h
    | check x =>
      simp only [runOps]
      exact ih bf

/-- C9: `add` and `check` accept any non-`None`, non-empty-string value, for
example an integer: the positions hashed are those of the canonical string
form `str(x)`, `add` raises nothing, `check` returns a Boolean, and after
`add(x)` a `check(x)` answers `True`. -/
theorem C9_any_type (bf : BloomFilter) (x : PyValue)
    (hlen : bf.bit_array.length = bf.size) (hm : 1 ≤ bf.size)
    (hx : x ≠ PyValue.none ∧ x ≠ PyValue.str "") :
    bf._hashes x = bf._hashes (PyValue.str (pyStr x)) ∧
    (bf.add x).2 = Option.none ∧
    (∃ b, bf.check x = Except.ok b) ∧
    (bf.add x).1.check x = Except.ok true := by
  have hx' : ¬ badItem x := by
    intro h; rcases h with h | h
    · exact hx.1 h
    · exact hx.2 h
  refine ⟨rfl, by rw [add_valid bf x hx'], ?_, ?_⟩
  · exact ⟨checkLoop bf.bit_array (bf._hashes x),
      by simp [BloomFilter.check, hx']⟩
  · have := check_after_add bf x hx' hlen hm []
    simpa [addList] using this

/-- C9 witness: the integer `7` on a fresh size-8, 2-hash filter. -/
theorem C9_witness :
    ((BloomFilter.new 8 2).bit_array.length = (BloomFilter.new 8 2).size ∧
      1 ≤ (BloomFilter.new 8 2).size ∧
      (PyValue.int 7 ≠ PyValue.none ∧ PyValue.int 7 ≠ PyValue.str "")) ∧
    ((BloomFilter.new 8 2)._hashes (PyValue.int 7) =
        (BloomFilter.new 8 2)._hashes (PyValue.str (pyStr (PyValue.int 7))) ∧
      ((BloomFilter.new 8 2).add (PyValue.int 7)).2 = Option.none ∧
      (∃ b, (BloomFilter.new 8 2).check (PyValue.int 7) = Except.ok b) ∧
      ((BloomFilter.new 8 2).add (PyValue.int 7)).1.check (PyValue.int 7) =
        Except.ok true) :=
  ⟨⟨by decide, by decide, by decide, by decide⟩,
    C9_any_type (BloomFilter.new 8 2) (PyValue.int 7) (by decide) (by decide)
      ⟨by decide, by decide⟩⟩

/- Helper lemmas on the results dictionary. -/

/-- After `d[k] = v`, looking up `k` yields `v`. -/
theorem dictGet_dictSet_self (d : List (PyValue × String)) (k : PyValue)
    (v : String) : dictGet (dictSet d k v) k = some v := by
  induction d with
  | nil => simp [dictSet, dictGet]
  | cons e rest ih =>
    by_cases he : e.1 = k
    · simp [dictSet, dictGet, he]
    · simp [dictSet, dictGet, he, ih]

/-- Assignment `d[k] = v` does not change the binding of any other key. -/
theorem dictGet_dictSet_ne (d : List (PyValue × String)) (k : PyValue)
    (v : String) (k' : PyValue) (h : k' ≠ k) :
    dictGet (dictSet d k v) k' = dictGet d k' := by
  have h' : k ≠ k' := fun e => h e.symm
  induction d with
  | nil => simp [dictSet, dictGet, h']
  | cons e rest ih =>
    by_cases he : e.1 = k
    · rw [show dictSet (e :: rest) k v = (e.1, v) :: rest from by
        simp [dictSet, he]]
      have he' : e.1 ≠ k' := by rw [he]; exact h'
      simp [dictGet, he']
    · rw [show dictSet (e :: rest) k v = e :: dictSet rest k v from by
        simp [dictSet, he]]
      by_cases he2 : e.1 = k'
      · simp [dictGet, he2]
      · simp [dictGet, he2, ih]

/-- The keys after `d[k] = v` are the keys of `d` plus possibly `k`. -/
theorem mem_keys_dictSet (d : List (PyValue × String)) (k : PyValue)
    (v : String) (k' : PyValue) :
    k' ∈ (dictSet d k v).map Prod.fst ↔ k' ∈ d.map Prod.fst ∨ k' = k := by
  induction d with
  | nil => simp [dictSet]
  | cons e rest ih =>
    by_cases he : e.1 = k
    · rw [show dictSet (e :: rest) k v = (e.1, v) :: rest from by
        simp [dictSet, he]]
      simp only [List.map_cons, List.mem_cons]
      constructor
      · rintro (h | h)
        · exact Or.inl (Or.inl h)
        · exact Or.inl (Or.inr h)
      · rintro ((h | h) | h)
        · exact Or.inl h
        · exact Or.inr h
        · exact Or.inl (by rw [h, ← he])
    · rw [show dictSet (e :: rest) k v = e :: dictSet rest k v from by
        simp [dictSet, he]]
      simp only [List.map_cons, List.mem_cons, ih]
      tauto

/-- Assignment `d[k] = v` keeps the keys free of duplicates. -/
theorem nodup_keys_dictSet (d : List (PyValue × String)) (k : PyValue)
    (v : String) (h : (d.map Prod.fst).Nodup) :
    ((dictSet d k v).map Prod.fst).Nodup := by
  induction d with
  | nil => simp [dictSet]
  | cons e rest ih =>
    simp only [List.map_cons, List.nodup_cons] at h
    by_cases he : e.1 = k
    · rw [show dictSet (e :: rest) k v = (e.1, v) :: rest from by
        simp [dictSet, he]]
      simp only [List.map_cons, List.nodup_cons]
      exact h
    · rw [show dictSet (e :: rest) k v = e :: dictSet rest k v from by
        simp [dictSet, he]]
      simp only [List.map_cons, List.nodup_cons]
      refine ⟨fun hmem => ?_, ih h.2⟩
      rw [mem_keys_dictSet] at hmem
      rcases hmem with hm | hm
      · exact h.1 hm
      · exact he hm

/- Helper lemmas on the classifier loop. -/

/-- Items passing the guard of `check_password_uniqueness` are valid for
`add`/`check`. -/
theorem valid_of_guard (p : PyValue)
    (hp : ¬ (p.isStr = false ∨ p = PyValue.str "")) : ¬ badItem p := by
  intro hb
  rcases hb with hb | hb
  · subst hb; exact hp (Or.inl rfl)
  · exact hp (Or.inr hb)

/-- One step of the classifier loop: the item is recorded under its
classification and the filter advances by `stepFilter`. -/
theorem cpuGo_cons (bf : BloomFilter) (acc : List (PyValue × String))
    (p : PyValue) (rest : List PyValue) :
    cpuGo bf acc (p :: rest) =
      cpuGo (stepFilter bf p) (dictSet acc p (classifyOne bf p)) rest := by
  by_cases hp : p.isStr = false ∨ p = PyValue.str ""
  · simp only [cpuGo, stepFilter, classifyOne, if_pos hp]
  · have hval : ¬ badItem p := valid_of_guard p hp
    have hcheck : bf.check p =
        Except.ok (checkLoop bf.bit_array (bf._hashes p)) := by
      simp [BloomFilter.check, hval]
    simp only [cpuGo, stepFilter, classifyOne, if_neg hp]
    rw [hcheck]
    cases hb : checkLoop bf.bit_array (bf._hashes p)
    · rw [add_valid bf p hval]
    · rfl

/-- Running the classifier from two different accumulated dictionaries gives
the same final filter, and the final dictionaries agree on every key the
accumulators agree on. -/
theorem cpuGo_congr (items : List PyValue) :
    ∀ (bf : BloomFilter) (acc1 acc2 : List (PyValue × String)),
      ∃ bf' d1 d2, cpuGo bf acc1 items = Except.ok (bf', d1) ∧
        cpuGo bf acc2 items = Except.ok (bf', d2) ∧
        ∀ k, dictGet acc1 k = dictGet acc2 k →
          dictGet d1 k = dictGet d2 k := by
  induction items with
  | nil => intro bf acc1 acc2; exact ⟨bf, acc1, acc2, rfl, rfl, fun _ hk => hk⟩
  | cons p rest ih =>
    intro bf acc1 acc2
    rw [cpuGo_cons, cpuGo_cons]
    obtain ⟨bf', d1, d2, h1, h2, h3⟩ := ih (stepFilter bf p)
      (dictSet acc1 p (classifyOne bf p)) (dictSet acc2 p (classifyOne bf p))
    refine ⟨bf', d1, d2, h1, h2, fun k hk => h3 k ?_⟩
    by_cases hpk : p = k
    · subst hpk; rw [dictGet_dictSet_self, dictGet_dictSet_self]
    · rw [dictGet_dictSet_ne _ _ _ _ (fun e => hpk e.symm),
        dictGet_dictSet_ne _ _ _ _ (fun e => hpk e.symm)]
      exact hk

/-- The classifier loop never raises. -/
theorem cpuGo_ok (items : List PyValue) (bf : BloomFilter)
    (acc : List (PyValue × String)) :
    ∃ bf' d, cpuGo bf acc items = Except.ok (bf', d) := by
  obtain ⟨bf', d1, _, h1, _, _⟩ := cpuGo_congr items bf acc acc
  exact ⟨bf', d1, h1⟩

/-- Splitting a classifier run at a list append. -/
theorem cpuGo_append (l1 l2 : List PyValue) :
    ∀ (bf : BloomFilter) (acc : List (PyValue × String)),
      ∃ bf1 d1, cpuGo bf acc l1 = Except.ok (bf1, d1) ∧
        cpuGo bf acc (l1 ++ l2) = cpuGo bf1 d1 l2 := by
  induction l1 with
  | nil => intro bf acc; exact ⟨bf, acc, rfl, rfl⟩
  | cons p t ih =>
    intro bf acc
    rw [List.cons_append, cpuGo_cons, cpuGo_cons]
    exact ih _ _

/-- Keys not occurring among the remaining items keep their binding. -/
theorem cpuGo_get_notin (items : List PyValue) :
    ∀ (bf : BloomFilter) (acc : List (PyValue × String)) (k : PyValue),
      k ∉ items → ∀ bf' d, cpuGo bf acc items = Except.ok (bf', d) →
        dictGet d k = dictGet acc k := by
  induction items with
  | nil =>
    intro bf acc k _ bf' d h
    simp only [cpuGo, Except.ok.injEq, Prod.mk.injEq] at h
    rw [← h.2]
  | cons p rest ih =>
    intro bf acc k hk bf' d h
    rw [cpuGo_cons] at h
    have hkr : k ∉ rest := fun hr => hk (List.mem_cons_of_mem p hr)
    have hkp : k ≠ p := fun e => hk (by rw [e]; exact List.mem_cons_self p rest)
    rw [ih _ _ k hkr bf' d h]
    exact dictGet_dictSet_ne acc p (classifyOne bf p) k hkp

/-- The final dictionary binds exactly the accumulator keys plus the
processed items, without duplicate keys. -/
theorem cpuGo_keys (items : List PyValue) :
    ∀ (bf : BloomFilter) (acc : List (PyValue × String)) (bf' : BloomFilter)
      (d : List (PyValue × String)),
      cpuGo bf acc items = Except.ok (bf', d) →
      (∀ k, k ∈ d.map Prod.fst ↔ k ∈ acc.map Prod.fst ∨ k ∈ items) ∧
        ((acc.map Prod.fst).Nodup → (d.map Prod.fst).Nodup) := by
  induction items with
  | nil =>
    intro bf acc bf' d h
    simp only [cpuGo, Except.ok.injEq, Prod.mk.injEq] at h
    rw [← h.2]
    exact ⟨fun k => by simp, id⟩
  | cons p rest ih =>
    intro bf acc bf' d h
    rw [cpuGo_cons] at h
    obtain ⟨hmem, hnd⟩ := ih _ _ _ _ h
    constructor
    · intro k
      rw [hmem k, mem_keys_dictSet]
      simp only [List.mem_cons]
      tauto
    · intro hacc
      exact hnd (nodup_keys_dictSet acc p _ hacc)

/-- A guard-invalid value, once bound to `"invalid input"`, keeps that
binding for the rest of the run (any later occurrence is again invalid). -/
theorem cpuGo_bad_stable (items : List PyValue) :
    ∀ (bf : BloomFilter) (acc : List (PyValue × String)) (bad : PyValue),
      (bad.isStr = false ∨ bad = PyValue.str "") →
      dictGet acc bad = some "invalid input" →
      ∀ bf' d, cpuGo bf acc items = Except.ok (bf', d) →
        dictGet d bad = some "invalid input" := by
  induction items with
  | nil =>
    intro bf acc bad _ hacc bf' d h
    simp only [cpuGo, Except.ok.injEq, Prod.mk.injEq] at h
    rw [← h.2]
    exact hacc
  | cons p rest ih =>
    intro bf acc bad hbad hacc bf' d h
    rw [cpuGo_cons] at h
    refine ih _ _ bad hbad ?_ bf' d h
    by_cases hpb : p = bad
    · subst hpb
      rw [dictGet_dictSet_self]
      simp [classifyOne, hbad]
    · rw [dictGet_dictSet_ne _ _ _ _ (fun e => hpb e.symm)]
      exact hacc

/- The claims about the classifier. -/

/-- C6: the classifier never raises; inserting a guard-invalid entry (a
non-string or the empty string) into a batch leaves the final filter exactly
as without it, binds that entry to `"invalid input"`, and leaves the
classification of every other key exactly as if the invalid entry were
absent. -/
theorem C6_invalid_isolation (bf : BloomFilter) (l1 l2 : List PyValue)
    (bad : PyValue) (hbad : bad.isStr = false ∨ bad = PyValue.str "") :
    (∀ items, ∃ r, check_password_uniqueness bf items = Except.ok r) ∧
    ∃ bfA dA bfB dB,
      check_password_uniqueness bf (l1 ++ bad :: l2) = Except.ok (bfA, dA) ∧
      check_password_uniqueness bf (l1 ++ l2) = Except.ok (bfB, dB) ∧
      bfA = bfB ∧
      dictGet dA bad = some "invalid input" ∧
      (∀ k, k ≠ bad → dictGet dA k = dictGet dB k) := by
  constructor
  · intro items
    obtain ⟨bf', d, hh⟩ := cpuGo_ok items bf []
    exact ⟨(bf', d), hh⟩
  · obtain ⟨bf1, d1, hrun1, happ1⟩ := cpuGo_append l1 (bad :: l2) bf []
    obtain ⟨bf1', d1', hrun1', happ2⟩ := cpuGo_append l1 l2 bf []
    rw [hrun1] at hrun1'
    simp only [Except.ok.injEq, Prod.mk.injEq] at hrun1'
    obtain ⟨hbf, hd⟩ := hrun1'
    subst hbf
    subst hd
    have hstep : stepFilter bf1 bad = bf1 := by simp [stepFilter, hbad]
    have hcls : classifyOne bf1 bad = "invalid input" := by
      simp [classifyOne, hbad]
    obtain ⟨bf', dA, dB, hA, hB, hcong⟩ :=
      cpuGo_congr l2 bf1 (dictSet d1 bad "invalid input") d1
    refine ⟨bf', dA, bf', dB, ?_, ?_, rfl, ?_, ?_⟩
    · show cpuGo bf [] (l1 ++ bad :: l2) = _
      rw [happ1, cpuGo_cons, hstep, hcls]
      exact hA
    · show cpuGo bf [] (l1 ++ l2) = _
      rw [happ2]
      exact hB
    · exact cpuGo_bad_stable l2 bf1 _ bad hbad
        (dictGet_dictSet_self d1 bad _) bf' dA hA
    · intro k hk
      exact hcong k (dictGet_dictSet_ne d1 bad _ k hk)

/-- C6 witness: `None` between the valid passwords `"u"` and `"v"` on a
fresh size-8, 2-hash filter. -/
theorem C6_witness :
    (PyValue.none.isStr = false ∨ PyValue.none = PyValue.str "") ∧
    ((∀ items, ∃ r,
        check_password_uniqueness (BloomFilter.new 8 2) items =
          Except.ok r) ∧
      ∃ bfA dA bfB dB,
        check_password_uniqueness (BloomFilter.new 8 2)
          ([PyValue.str "u"] ++ PyValue.none :: [PyValue.str "v"]) =
          Except.ok (bfA, dA) ∧
        check_password_uniqueness (BloomFilter.new 8 2)
          ([PyValue.str "u"] ++ [PyValue.str "v"]) = Except.ok (bfB, dB) ∧
        bfA = bfB ∧
        dictGet dA PyValue.none = some "invalid input" ∧
        (∀ k, k ≠ PyValue.none → dictGet dA k = dictGet dB k)) :=
  ⟨Or.inl rfl, C6_invalid_isolation (BloomFilter.new 8 2) [PyValue.str "u"]
    [PyValue.str "v"] PyValue.none (Or.inl rfl)⟩

/-- C10: the dictionary returned by `check_password_uniqueness` has exactly
one entry per distinct item of the batch (its keys are duplicate-free and are
exactly the values occurring in the batch), and the entry of an item is the
classification computed at its last occurrence, against the filter state
accumulated over the items before that occurrence. -/
theorem C10_dict_last_occurrence (bf : BloomFilter)
    (batch l1 l2 : List PyValue) (x : PyValue)
    (hb : batch = l1 ++ x :: l2) (hx : x ∉ l2) :
    ∃ bf1 d1 bfA d,
      check_password_uniqueness bf l1 = Except.ok (bf1, d1) ∧
      check_password_uniqueness bf batch = Except.ok (bfA, d) ∧
      (d.map Prod.fst).Nodup ∧
      (∀ k, k ∈ d.map Prod.fst ↔ k ∈ batch) ∧
      dictGet d x = some (classifyOne bf1 x) := by
  subst hb
  obtain ⟨bf1, d1, hrun1, happ⟩ := cpuGo_append l1 (x :: l2) bf []
  obtain ⟨bfA, d, hA⟩ := cpuGo_ok l2 (stepFilter bf1 x)
    (dictSet d1 x (classifyOne bf1 x))
  have hfull : cpuGo bf [] (l1 ++ x :: l2) = Except.ok (bfA, d) := by
    rw [happ, cpuGo_cons]
    exact hA
  obtain ⟨hkeys, hnodup⟩ := cpuGo_keys (l1 ++ x :: l2) bf [] bfA d hfull
  refine ⟨bf1, d1, bfA, d, hrun1, hfull, hnodup (by simp), ?_, ?_⟩
  · intro k
    rw [hkeys k]
    simp
  · rw [cpuGo_get_notin l2 _ _ x hx bfA d hA]
    exact dictGet_dictSet_self d1 x _

/-- C10 witness: the batch `["a", "b", "a"]` on a fresh size-8, 2-hash
filter, split at the last occurrence of `"a"`. -/
theorem C10_witness :
    ([PyValue.str "a", PyValue.str "b", PyValue.str "a"] =
        [PyValue.str "a", PyValue.str "b"] ++ PyValue.str "a" :: [] ∧
      PyValue.str "a" ∉ ([] : List PyValue)) ∧
    (∃ bf1 d1 bfA d,
      check_password_uniqueness (BloomFilter.new 8 2)
        [PyValue.str "a", PyValue.str "b"] = Except.ok (bf1, d1) ∧
      check_password_uniqueness (BloomFilter.new 8 2)
        [PyValue.str "a", PyValue.str "b", PyValue.str "a"] =
        Except.ok (bfA, d) ∧
      (d.map Prod.fst).Nodup ∧
      (∀ k, k ∈ d.map Prod.fst ↔
        k ∈ [PyValue.str "a", PyValue.str "b", PyValue.str "a"]) ∧
      dictGet d (PyValue.str "a") = some (classifyOne bf1 (PyValue.str "a"))) :=
  ⟨⟨rfl, by simp⟩, C10_dict_last_occurrence (BloomFilter.new 8 2)
    [PyValue.str "a", PyValue.str "b", PyValue.str "a"]
    [PyValue.str "a", PyValue.str "b"] [] (PyValue.str "a") rfl (by simp)⟩

/-- C2 counterexample: on the batch `["a", "b", "a"]` against an empty
size-1000, 3-hash filter (the demo's parameters), the returned mapping has
two entries, not one per supplied occurrence, and the key `"a"` is bound to
`"already used"`, not to the `"unique"` classification of its first
occurrence: duplicates are not kept as separate entries. -/
theorem C2_counterexample :
    (check_password_uniqueness (BloomFilter.new 1000 3)
      [PyValue.str "a", PyValue.str "b", PyValue.str "a"]).toOption.map
        (fun r => (r.2.length, dictGet r.2 (PyValue.str "a"))) =
      some (2, some "already used") := by decide

/-- C2 amended: the loop classifies the occurrences of `["a", "b", "a"]`
in order as `unique`, `unique`, `already used` (the second `"a"` sees the
filter already containing `"a"`), but the returned dictionary keeps one
entry per distinct item, the second `"a"` overwriting the first: the result
is `{"a": "already used", "b": "unique"}`. -/
theorem C2_amended :
    classifyOne (BloomFilter.new 1000 3) (PyValue.str "a") = "unique" ∧
    classifyOne (stepFilter (BloomFilter.new 1000 3) (PyValue.str "a"))
      (PyValue.str "b") = "unique" ∧
    classifyOne (stepFilter (stepFilter (BloomFilter.new 1000 3)
      (PyValue.str "a")) (PyValue.str "b")) (PyValue.str "a") =
      "already used" ∧
    (check_password_uniqueness (BloomFilter.new 1000 3)
      [PyValue.str "a", PyValue.str "b", PyValue.str "a"]).toOption.map
        (fun r => r.2) =
      some [(PyValue.str "a", "already used"),
        (PyValue.str "b", "unique")] := by
  refine ⟨by decide, by decide, by decide, by decide⟩

/- Helper lemmas on the cardinality estimator, and its claim. -/

/-- Re-applying the register max-update with the same rank is a no-op. -/
theorem hll_set_idem (l : List Nat) (j rank : Nat) :
    (l.set j (max (l.getD j 0) rank)).set j
      (max ((l.set j (max (l.getD j 0) rank)).getD j 0) rank) =
    l.set j (max (l.getD j 0) rank) := by
  apply ext_of_length_getD
  · rw [List.length_set, List.length_set]
  · intro i
    rw [getD_set]
    split
    · rename_i hcond
      obtain ⟨rfl, hlt⟩ := hcond
      have hlt' : j < l.length := by rwa [List.length_set] at hlt
      have hv : (l.set j (max (l.getD j 0) rank)).getD j 0 =
          max (l.getD j 0) rank := by
        rw [getD_set]
        simp [hlt']
      rw [hv]
      exact max_eq_left (le_max_right _ _)
    · rfl

/-- Adding the same item twice in a row is a no-op on the sketch. -/
theorem hll_add_idem (h : HyperLogLog) (x : String) :
    (h.add x).add x = h.add x := by
  apply congrArg (HyperLogLog.mk h.p)
  exact hll_set_idem h.registers (hllIndex h.p x) (hllRank h.p x)

/-- Adding the same item `m + 1` times equals adding it once. -/
theorem hll_addN (h : HyperLogLog) (x : String) (n : Nat) :
    (fun st => HyperLogLog.add st x)^[n + 1] h = h.add x := by
  induction n with
  | zero => simp
  | succ m ih =>
    rw [Function.iterate_succ_apply', ih]
    exact hll_add_idem h x

/-- Duplicating a stream element next to itself leaves the folded sketch
unchanged. -/
theorem foldl_hll_dup (l1 l2 : List String) (x : String) (h0 : HyperLogLog) :
    (l1 ++ x :: x :: l2).foldl HyperLogLog.add h0 =
      (l1 ++ x :: l2).foldl HyperLogLog.add h0 := by
  rw [List.foldl_append, List.foldl_append]
  simp only [List.foldl_cons]
  rw [hll_add_idem]

/-- C8: adding the same item `n ≥ 1` times leaves the sketch, and hence its
`estimate`, identical to adding it once; equivalently,
`hyperloglog_count_unique` is unchanged when an element of the list is
duplicated. -/
theorem C8_estimator_idempotent (h : HyperLogLog) (x : String) (n : Nat)
    (hn : 1 ≤ n) (l1 l2 : List String) :
    (fun st => HyperLogLog.add st x)^[n] h = h.add x ∧
    ((fun st => HyperLogLog.add st x)^[n] h).card = (h.add x).card ∧
    hyperloglog_count_unique (l1 ++ x :: x :: l2) =
      hyperloglog_count_unique (l1 ++ x :: l2) := by
  obtain ⟨m, rfl⟩ : ∃ m, n = m + 1 := ⟨n - 1, by omega⟩
  refine ⟨hll_addN h x m, by rw [hll_addN h x m], ?_⟩
  unfold hyperloglog_count_unique
  rw [foldl_hll_dup]

/-- C8 witness: the item `"ip"` added three times to a fresh 4-register
sketch, and duplicated inside the list `["a", "ip", "b"]`. -/
theorem C8_witness :
    1 ≤ 3 ∧
    ((fun st => HyperLogLog.add st "ip")^[3] (HyperLogLog.new 2) =
        (HyperLogLog.new 2).add "ip" ∧
      ((fun st => HyperLogLog.add st "ip")^[3] (HyperLogLog.new 2)).card =
        ((HyperLogLog.new 2).add "ip").card ∧
      hyperloglog_count_unique (["a"] ++ "ip" :: "ip" :: ["b"]) =
        hyperloglog_count_unique (["a"] ++ "ip" :: ["b"])) :=
  ⟨by decide, C8_estimator_idempotent (HyperLogLog.new 2) "ip" 3 (by decide)
    ["a"] ["b"]⟩
